import Mathlib

/-!
Verification of the ggml tensor-library core (ik_llama.cpp fork) against its
specification.  The repository provides the public header
`src/ggml/include/ggml.h`; the function bodies live in `ggml.c`, which is not
part of the sources, so the executable behaviour below is modelled from the
specification, anchored in the header's struct layouts, enum values and
documentation comments.  Machine integers (`int64_t ne[4]`, `size_t nb[4]`)
are modelled as `Nat`: all quantities involved (extents, strides, byte sizes)
are non-negative and far below 2^64 in every scenario the claims speak about,
so wrap-around is irrelevant.
-/

namespace Ggml

/-- Mirror of `enum ggml_type` (ggml.h lines 371-400), restricted to a
representative subset: the plain float/integer types and the classic
block-quantized types.  The claims quantify over types only through the
block-size/type-size descriptor table. -/
inductive ggml_type where
  | F32
  | F16
  | BF16
  | I8
  | I16
  | I32
  | Q4_0
  | Q4_1
  | Q5_0
  | Q8_0
  | Q8_1
deriving DecidableEq

/-- Modelled from the spec: the type-descriptor table (`type_traits` in
ggml.c, not under src/) records the "block size (elements per minimal
addressable codec unit — 1 for plain floating-point, >1 for block-compressed
formats)".  The classic quantized formats pack 32 elements per block. -/
def ggml_blck_size : ggml_type → ℕ
  | .F32 => 1
  | .F16 => 1
  | .BF16 => 1
  | .I8 => 1
  | .I16 => 1
  | .I32 => 1
  | .Q4_0 => 32
  | .Q4_1 => 32
  | .Q5_0 => 32
  | .Q8_0 => 32
  | .Q8_1 => 32

/-- Modelled from the spec: bytes per block ("byte size per block" of the
type-descriptor table; `ggml_type_size` of ggml.c is not under src/).  For
block size 1 this is the plain element width; for the quantized formats it is
the packed block footprint (e.g. Q8_0: 32 int8 weights + one fp16 scale = 34
bytes). -/
def ggml_type_size : ggml_type → ℕ
  | .F32 => 4
  | .F16 => 2
  | .BF16 => 2
  | .I8 => 1
  | .I16 => 2
  | .I32 => 4
  | .Q4_0 => 18
  | .Q4_1 => 20
  | .Q5_0 => 22
  | .Q8_0 => 34
  | .Q8_1 => 36

/-- Modelled from the spec: a type is "compressed (quantized)" exactly when
its codec block covers more than one element. -/
def ggml_is_quantized (t : ggml_type) : Bool :=
  1 < ggml_blck_size t

/-- Modelled from the spec: `ggml_row_size(type, ne)` (declared at ggml.h
line 858, body in ggml.c, not under src/) — "bytes-per-row =
ceil(row_elements / block_size) * bytes_per_block". -/
def ggml_row_size (ty : ggml_type) (ne : ℕ) : ℕ :=
  ((ne + ggml_blck_size ty - 1) / ggml_blck_size ty) * ggml_type_size ty

/-- Mirror of the operation tag `enum ggml_op` (ggml.h line 453 onwards),
restricted to the operations the claims exercise.  `none` is
`GGML_OP_NONE` (value 0): the tag of leaf tensors. -/
inductive ggml_op where
  | none
  | add
  | mul
  | reshape
  | view
  | permute
  | transpose
deriving DecidableEq

/-- Mirror of the shape/stride fragment of `struct ggml_tensor` (ggml.h lines
713-749): element type, extents `ne[4]`, byte strides `nb[4]`, the producing
op, its parameters, the view back-reference (`view_src`/`view_offs`,
modelled as the arena identity of the root tensor), the storage pointer
(`data`, modelled as an abstract address), the first source back-reference
(`src[0]`, as an identity) and the tensor's own identity. -/
structure ggml_tensor where
  type : ggml_type
  ne0 : ℕ
  ne1 : ℕ
  ne2 : ℕ
  ne3 : ℕ
  nb0 : ℕ
  nb1 : ℕ
  nb2 : ℕ
  nb3 : ℕ
  op : ggml_op
  op_params : List ℕ
  id : ℕ
  src0 : Option ℕ
  view_src : Option ℕ
  view_offs : ℕ
  data : ℕ
deriving DecidableEq

/-- Modelled from the spec: `ggml_new_tensor_4d` (declared at ggml.h lines
952-959; body in ggml.c, not under src/) creates a fresh contiguous tensor.
The strides follow the header's own documentation of the `nb` fields
(ggml.h lines 721-724):
  nb[0] = ggml_type_size(type),
  nb[1] = nb[0] * (ne[0] / ggml_blck_size(type)),
  nb[i] = nb[i-1] * ne[i-1]. -/
def ggml_new_tensor_4d (ty : ggml_type) (ne0 ne1 ne2 ne3 : ℕ) (id data : ℕ) :
    ggml_tensor :=
  let nb0 := ggml_type_size ty
  let nb1 := nb0 * (ne0 / ggml_blck_size ty)
  let nb2 := nb1 * ne1
  let nb3 := nb2 * ne2
  { type := ty, ne0 := ne0, ne1 := ne1, ne2 := ne2, ne3 := ne3,
    nb0 := nb0, nb1 := nb1, nb2 := nb2, nb3 := nb3,
    op := ggml_op.none, op_params := [], id := id, src0 := none,
    view_src := none, view_offs := 0, data := data }

/-- Mirror of `ggml_nelements` (declared at ggml.h line 850): the total
element count of a tensor. -/
def ggml_nelements (t : ggml_tensor) : ℕ :=
  t.ne0 * t.ne1 * t.ne2 * t.ne3

/-- Modelled from the spec: `ggml_nbytes` (declared at ggml.h line 852; body
in ggml.c, not under src/).  The byte size of a strided tensor is the offset
one past its highest-addressed element, with dimension 0 measured in codec
blocks: for block size 1 it is `type_size + sum_i (ne[i]-1)*nb[i]`, and for
block-compressed types the dimension-0 contribution is
`ne[0]*nb[0]/blck_size`, so that, as the spec requires, "all stride and
allocation-size computations route through" the block formula. -/
def ggml_nbytes (t : ggml_tensor) : ℕ :=
  if ggml_blck_size t.type = 1 then
    ggml_type_size t.type + (t.ne0 - 1) * t.nb0 + (t.ne1 - 1) * t.nb1 +
      (t.ne2 - 1) * t.nb2 + (t.ne3 - 1) * t.nb3
  else
    t.ne0 * t.nb0 / ggml_blck_size t.type + (t.ne1 - 1) * t.nb1 +
      (t.ne2 - 1) * t.nb2 + (t.ne3 - 1) * t.nb3

/-- Modelled from the spec: `ggml_is_contiguous` (declared at ggml.h line
887; body in ggml.c, not under src/) — the "fully contiguous" predicate of
§6: the stride fields equal the contiguous defaults documented in the header
(ggml.h lines 721-724). -/
def ggml_is_contiguous (t : ggml_tensor) : Bool :=
  (t.nb0 == ggml_type_size t.type) &&
  (t.nb1 == t.nb0 * (t.ne0 / ggml_blck_size t.type)) &&
  (t.nb2 == t.nb1 * t.ne1) &&
  (t.nb3 == t.nb2 * t.ne2)

/-- The arena identity of the storage-owning root of a tensor: a view refers
to its root through `view_src`, a non-view is its own root.  Models the
view-source resolution done by `ggml_new_tensor_impl` in ggml.c. -/
def view_root_id (a : ggml_tensor) : ℕ :=
  match a.view_src with
  | some r => r
  | none => a.id

/-- Modelled from the spec: `ggml_view_tensor` (declared at ggml.h line 971;
body in ggml.c, not under src/) — a fresh header with the same type, extents,
strides and element storage as `a`, recording the root view source and byte
offset ("Views allocate only a new header that shares the same element
storage as its source"). -/
def ggml_view_tensor (a : ggml_tensor) (id : ℕ) : ggml_tensor :=
  { a with op := ggml_op.none, op_params := [], id := id, src0 := none,
           view_src := some (view_root_id a) }

/-- Modelled from the spec: `ggml_reshape` (declared at ggml.h lines
1519-1522; body in ggml.c, not under src/).  The fatal assertion path — the
source must be contiguous and the total element count unchanged — is
modelled as `none`; otherwise the result is a view of `a` carrying the
requested shape with fresh contiguous strides. -/
def ggml_reshape (a : ggml_tensor) (ne0 ne1 ne2 ne3 : ℕ) (id : ℕ) :
    Option ggml_tensor :=
  if ggml_is_contiguous a = true ∧ ggml_nelements a = ne0 * ne1 * ne2 * ne3 then
    some { ggml_new_tensor_4d a.type ne0 ne1 ne2 ne3 id a.data with
           op := ggml_op.reshape, src0 := some a.id,
           view_src := some (view_root_id a), view_offs := a.view_offs }
  else none

/-- Write value `v` into component `i` of an extent/stride quadruple. -/
def set4 (x : ℕ × ℕ × ℕ × ℕ) (i : ℕ) (v : ℕ) : ℕ × ℕ × ℕ × ℕ :=
  match i with
  | 0 => (v, x.2.1, x.2.2.1, x.2.2.2)
  | 1 => (x.1, v, x.2.2.1, x.2.2.2)
  | 2 => (x.1, x.2.1, v, x.2.2.2)
  | _ => (x.1, x.2.1, x.2.2.1, v)

/-- Modelled from the spec: `ggml_permute` (declared at ggml.h lines
1591-1597; body in ggml.c, not under src/).  The fatal assertions — each
axis below GGML_MAX_DIMS and all four distinct — are modelled as `none`;
otherwise extent/stride pair `i` of `a` is moved to position `axis_i` of a
view of `a` ("Permutation swaps stride/extent pairs without moving data"). -/
def ggml_permute (a : ggml_tensor) (axis0 axis1 axis2 axis3 : ℕ) (id : ℕ) :
    Option ggml_tensor :=
  if axis0 < 4 ∧ axis1 < 4 ∧ axis2 < 4 ∧ axis3 < 4 ∧
     axis0 ≠ axis1 ∧ axis0 ≠ axis2 ∧ axis0 ≠ axis3 ∧
     axis1 ≠ axis2 ∧ axis1 ≠ axis3 ∧ axis2 ≠ axis3 then
    let r := ggml_view_tensor a id
    let ne := set4 (set4 (set4 (set4 (0, 0, 0, 0) axis0 a.ne0) axis1 a.ne1)
      axis2 a.ne2) axis3 a.ne3
    let nb := set4 (set4 (set4 (set4 (0, 0, 0, 0) axis0 a.nb0) axis1 a.nb1)
      axis2 a.nb2) axis3 a.nb3
    some { r with ne0 := ne.1, ne1 := ne.2.1, ne2 := ne.2.2.1, ne3 := ne.2.2.2,
                  nb0 := nb.1, nb1 := nb.2.1, nb2 := nb.2.2.1, nb3 := nb.2.2.2,
                  op := ggml_op.permute,
                  op_params := [axis0, axis1, axis2, axis3],
                  src0 := some a.id }
  else none

/-- Modelled from the spec/header: `ggml_transpose` (declared at ggml.h lines
1599-1602, documented there as "alias for ggml_permute(ctx, a, 1, 0, 2, 3)";
body in ggml.c, not under src/): a view of `a` with the first two
extent/stride pairs swapped. -/
def ggml_transpose (a : ggml_tensor) (id : ℕ) : ggml_tensor :=
  { ggml_view_tensor a id with
    ne0 := a.ne1, ne1 := a.ne0, nb0 := a.nb1, nb1 := a.nb0,
    op := ggml_op.transpose, src0 := some a.id }

/-- The abstract byte address of element (i0, i1, i2, i3) of a strided
tensor, per the header's access formula
`(char *) t->data + i0*t->nb[0] + i1*t->nb[1] + i2*t->nb[2] + i3*t->nb[3]`
(ggml.h lines 138-153). -/
def elem_addr (t : ggml_tensor) (i0 i1 i2 i3 : ℕ) : ℕ :=
  t.data + i0 * t.nb0 + i1 * t.nb1 + i2 * t.nb2 + i3 * t.nb3

/-- Extensional equality of tensor headers: equal element type, extents,
strides, source back-reference, view source, view offset and storage — i.e.
equal in everything except the operation tag and its parameters. -/
def tensor_ext_eq (s t : ggml_tensor) : Prop :=
  s.type = t.type ∧
  s.ne0 = t.ne0 ∧ s.ne1 = t.ne1 ∧ s.ne2 = t.ne2 ∧ s.ne3 = t.ne3 ∧
  s.nb0 = t.nb0 ∧ s.nb1 = t.nb1 ∧ s.nb2 = t.nb2 ∧ s.nb3 = t.nb3 ∧
  s.src0 = t.src0 ∧ s.view_src = t.view_src ∧ s.view_offs = t.view_offs ∧
  s.data = t.data

/-- Mirror of the graph fragment of `struct ggml_tensor` (ggml.h lines
727-741): the producing operation tag, the source back-references `src[]`
and the view back-reference `view_src`, with arena indices standing for the
raw tensor pointers (the spec's §9 "arena+index discipline").  On a
bump-allocated arena every back-reference points to a strictly earlier
index — a tensor is created after its sources. -/
structure tensor_node where
  op : ggml_op
  src : List ℕ
  view_src : Option ℕ
deriving DecidableEq

/-- All graph back-references of a node: the view source first (§4.2 rule 3:
"a tensor that is itself an unmaterialized view of another tensor must have
its view-source expanded first"), then the operation sources. -/
def srcAll (t : tensor_node) : List ℕ :=
  t.view_src.toList ++ t.src

/-- The node stored at arena index `i`; an out-of-range index denotes a
plain leaf with no back-references. -/
def node_at (ctx : List tensor_node) (i : ℕ) : tensor_node :=
  (ctx.get? i).getD { op := ggml_op.none, src := [], view_src := none }

/-- The back-references of the tensor at arena index `i`. -/
def srcOf (ctx : List tensor_node) (i : ℕ) : List ℕ :=
  srcAll (node_at ctx i)

/-- Arena wellformedness: every back-reference of the tensor at index `i`
points strictly below `i` (bump allocation); this is exactly the acyclicity
of the operation chain. -/
def wf_context (ctx : List tensor_node) : Prop :=
  ∀ i, ∀ j ∈ srcOf ctx i, j < i

/-- Mirror of `struct ggml_cgraph` (ggml.h lines 785-797): the ordered node
sequence, the separate leaf sequence, and the deduplication set
`visited_hash_set` (modelled as the list of inserted keys; the hash set is
"keyed by pointer identity, entries are never removed"). -/
structure ggml_cgraph where
  nodes : List ℕ
  leafs : List ℕ
  visited : List ℕ
deriving DecidableEq

/-- A freshly created graph (`ggml_new_graph`): no nodes, no leafs, empty
dedup set. -/
def empty_graph : ggml_cgraph :=
  { nodes := [], leafs := [], visited := [] }

mutual

/-- Modelled from the spec: `ggml_visit_parents` (ggml.c, not under src/),
the depth-first expansion of §4.2: a tensor already in the dedup set is not
re-visited; otherwise it is marked visited, its back-references (view source
first, then sources) are expanded recursively, and the tensor itself is then
appended — to the leaf sequence when it has no producing operation, to the
node sequence otherwise, so "insertion happens only after all of a node's
sources have been (recursively) inserted".  The `fuel` argument bounds the
recursion depth only to exhibit termination: `ggml_build_forward_expand`
passes `i + 1`, which can never run out on a bump-allocated arena, where
back-references decrease strictly. -/
def ggml_visit_parents (ctx : List tensor_node) : ℕ → ℕ → ggml_cgraph → ggml_cgraph
  | 0, _, g => g
  | fuel + 1, i, g =>
    if i ∈ g.visited then g
    else
      let t := node_at ctx i
      let g2 := visit_src_list ctx fuel (srcAll t) { g with visited := i :: g.visited }
      if t.op = ggml_op.none then { g2 with leafs := g2.leafs ++ [i] }
      else { g2 with nodes := g2.nodes ++ [i] }
termination_by fuel _ _ => (fuel, 0)

/-- The loop over a node's back-references inside `ggml_visit_parents`,
expanding each in order. -/
def visit_src_list (ctx : List tensor_node) : ℕ → List ℕ → ggml_cgraph → ggml_cgraph
  | _, [], g => g
  | fuel, j :: rest, g => visit_src_list ctx fuel rest (ggml_visit_parents ctx fuel j g)
termination_by fuel l _ => (fuel, l.length + 1)

end

/-- Modelled from the spec: `ggml_build_forward_expand` (declared at ggml.h
line 2230; body in ggml.c, not under src/): expand the graph with the output
tensor at arena index `i` and, transitively, everything reachable through
its back-references. -/
def ggml_build_forward_expand (ctx : List tensor_node) (g : ggml_cgraph) (i : ℕ) :
    ggml_cgraph :=
  ggml_visit_parents ctx (i + 1) i g

/-- Expanding a fresh graph from a sequence of output tensors ("a Graph may
be expanded from multiple output tensors sequentially"). -/
def expand_outputs (ctx : List tensor_node) (outs : List ℕ) : ggml_cgraph :=
  outs.foldl (ggml_build_forward_expand ctx) empty_graph

/-- The tensors already appended to the graph, nodes and leafs together. -/
def placed (g : ggml_cgraph) : List ℕ :=
  g.nodes ++ g.leafs

/-- A tensor on the DFS stack: marked in the dedup set but not yet appended. -/
def pending (g : ggml_cgraph) (j : ℕ) : Prop :=
  j ∈ g.visited ∧ j ∉ placed g

/-- The topological-order invariant of §3: "every source of every node
already appears earlier in the node sequence or in the leaf sequence". -/
def topo_order_ok (ctx : List tensor_node) (g : ggml_cgraph) : Prop :=
  ∀ k, (hk : k < g.nodes.length) →
    ∀ s ∈ srcOf ctx (g.nodes.get ⟨k, hk⟩), s ∈ g.nodes.take k ∨ s ∈ g.leafs

/-- The running invariant of graph expansion: topological order, no
duplicates among the appended tensors, and everything appended is in the
dedup set. -/
def graph_inv (ctx : List tensor_node) (g : ggml_cgraph) : Prop :=
  topo_order_ok ctx g ∧ (placed g).Nodup ∧ ∀ j ∈ placed g, j ∈ g.visited

/-- What one `ggml_visit_parents` call guarantees, relating the input graph
`g`, the expanded tensor `i` and the output graph `gr`: node and leaf
sequences are only extended, the dedup set only grows and only by indices at
most `i`, the DFS stack (pending set) is unchanged, the running invariant is
preserved, and `i` ends up in the dedup set. -/
def VisitConcl (ctx : List tensor_node) (i : ℕ) (g gr : ggml_cgraph) : Prop :=
  (∃ dn, gr.nodes = g.nodes ++ dn) ∧
  (∃ dl, gr.leafs = g.leafs ++ dl) ∧
  (∀ x ∈ g.visited, x ∈ gr.visited) ∧
  (∀ x ∈ gr.visited, x ∈ g.visited ∨ x ≤ i) ∧
  (∀ j, pending gr j ↔ pending g j) ∧
  graph_inv ctx gr ∧
  i ∈ gr.visited

/-- What the loop over a list `l` of back-references, all strictly below the
bound `b`, guarantees. -/
def VisitListConcl (ctx : List tensor_node) (b : ℕ) (l : List ℕ)
    (g gr : ggml_cgraph) : Prop :=
  (∃ dn, gr.nodes = g.nodes ++ dn) ∧
  (∃ dl, gr.leafs = g.leafs ++ dl) ∧
  (∀ x ∈ g.visited, x ∈ gr.visited) ∧
  (∀ x ∈ gr.visited, x ∈ g.visited ∨ x < b) ∧
  (∀ j, pending gr j ↔ pending g j) ∧
  graph_inv ctx gr ∧
  ∀ x ∈ l, x ∈ gr.visited

/-- The arena of the header's own usage example `f(x) = a*x^2 + b`
(ggml.h lines 39-78): index 0 = x, 1 = a, 2 = b (leaves), 3 = x2 =
ggml_mul(x, x), 4 = ggml_mul(a, x2), 5 = f = ggml_add(ggml_mul(a, x2), b). -/
def ctx_axb : List tensor_node :=
  [ { op := ggml_op.none, src := [], view_src := none },
    { op := ggml_op.none, src := [], view_src := none },
    { op := ggml_op.none, src := [], view_src := none },
    { op := ggml_op.mul, src := [0, 0], view_src := none },
    { op := ggml_op.mul, src := [1, 3], view_src := none },
    { op := ggml_op.add, src := [4, 2], view_src := none } ]

/-- Modelled from the spec: forward evaluation of a single node.  The
operator catalogue is an external collaborator ("each is a leaf computation
with a known input/output shape rule"), so only the operations the claims
exercise — `ggml_add` and `ggml_mul` on scalars — are interpreted.  Numeric
values are exact rationals: every value in the claims' scenario is a small
integer, exactly representable in f32, on which f32 addition and
multiplication are exact. -/
def eval_node (ctx : List tensor_node) (v : ℕ → ℚ) (i : ℕ) : ℚ :=
  match (node_at ctx i).op, (node_at ctx i).src with
  | ggml_op.add, [s0, s1] => v s0 + v s1
  | ggml_op.mul, [s0, s1] => v s0 * v s1
  | _, _ => v i

/-- One executor step: compute node `i` from its sources and store its
value. -/
def forward_step (ctx : List tensor_node) (v : ℕ → ℚ) (i : ℕ) : ℕ → ℚ :=
  fun k => if k = i then eval_node ctx v i else v k

/-- Modelled from the spec: the value part of `ggml_graph_compute` (declared
at ggml.h line 2248; body in ggml.c, not under src/) — "Execution proceeds
node-by-node in the Graph's stored order". -/
def ggml_graph_compute_forward (ctx : List tensor_node) (g : ggml_cgraph)
    (v0 : ℕ → ℚ) : ℕ → ℚ :=
  g.nodes.foldl (forward_step ctx) v0

/-- Modelled from the spec: the contribution one application of node `n`'s
registered backward rule makes to the gradient of tensor `t`, given the
accumulated gradient `gn` of `n` and the forward values `v`: `add` passes
`gn` on to each source, `mul` passes `gn` scaled by the other source's
forward value; a tensor occupying several source slots receives the sum of
the slot contributions. -/
def backward_contrib (ctx : List tensor_node) (v : ℕ → ℚ) (n : ℕ) (gn : ℚ)
    (t : ℕ) : ℚ :=
  match (node_at ctx n).op, (node_at ctx n).src with
  | ggml_op.add, [s0, s1] =>
      (if t = s0 then gn else 0) + (if t = s1 then gn else 0)
  | ggml_op.mul, [s0, s1] =>
      (if t = s0 then gn * v s1 else 0) + (if t = s1 then gn * v s0 else 0)
  | _, _ => 0

/-- One step of the backward sweep: node `n` distributes its accumulated
gradient to its sources, summing into their gradients rather than
overwriting them. -/
def backward_step (ctx : List tensor_node) (v : ℕ → ℚ) (gr : ℕ → ℚ) (n : ℕ) :
    ℕ → ℚ :=
  fun t => gr t + backward_contrib ctx v n (gr n) t

/-- Modelled from the spec: `ggml_build_backward_expand` (declared at ggml.h
line 2231; body in ggml.c, not under src/), composed with evaluation of the
gradient tensors it builds: seed the output's gradient with the
multiplicative identity 1, then traverse the forward nodes in reverse
topological order, applying each node's registered backward rule. -/
def ggml_build_backward_expand (ctx : List tensor_node) (nodes : List ℕ)
    (out : ℕ) (v : ℕ → ℚ) : ℕ → ℚ :=
  nodes.reverse.foldl (backward_step ctx v)
    (fun t => if t = out then 1 else 0)

/-- The leaf values of the header example: x = 2 (index 0), a = 3 (index 1),
b = 4 (index 2). -/
def v0_axb : ℕ → ℚ :=
  fun i => if i = 0 then 2 else if i = 1 then 3 else if i = 2 then 4 else 0

/-- Mirror of `struct ggml_cplan` (ggml.h lines 758-769): the work-buffer
size computed by `ggml_graph_plan` and the thread count.  (`work_data` and
the abort callback are execution-time parameters, modelled at the
`ggml_graph_compute` call.) -/
structure ggml_cplan where
  work_size : ℕ
  n_threads : ℤ
deriving DecidableEq

/-- Modelled from the spec: `ggml_graph_plan` (declared at ggml.h line 2247;
body in ggml.c, not under src/), per §4.4: "iterate the node sequence once,
and for each node's operation kind, compute the scratch-buffer bytes that
operation needs when split across thread_count workers ... the plan's total
scratch requirement is the maximum single-node requirement, not the sum.
Fails fatally if thread_count < 1" — the fatal path is modelled as `none`.
The per-operation requirement is the abstract capability `scratch_bytes`
(§9): the operator catalogue is an external collaborator. -/
def ggml_graph_plan (scratch_bytes : ℕ → ℤ → ℕ) (g : ggml_cgraph)
    (n_threads : ℤ) : Option ggml_cplan :=
  if n_threads < 1 then none
  else some
    { work_size := g.nodes.foldl (fun ws n => max ws (scratch_bytes n n_threads)) 0,
      n_threads := n_threads }

/-- Mirror of `enum ggml_status` (ggml.h lines 341-346). -/
inductive ggml_status where
  | GGML_STATUS_ALLOC_FAILED
  | GGML_STATUS_FAILED
  | GGML_STATUS_SUCCESS
  | GGML_STATUS_ABORTED
deriving DecidableEq

/-- The integer values of `enum ggml_status` (ggml.h lines 342-345). -/
def ggml_status_code : ggml_status → ℤ
  | ggml_status.GGML_STATUS_ALLOC_FAILED => -2
  | ggml_status.GGML_STATUS_FAILED => -1
  | ggml_status.GGML_STATUS_SUCCESS => 0
  | ggml_status.GGML_STATUS_ABORTED => 1

/-- Modelled from the spec: the node loop of `ggml_graph_compute` (§4.4).
`abort_callback k` is the value the registered `ggml_abort_callback`
(ggml.h lines 753-756) returns when polled at the boundary before node
number `k`; `node_ok n` says whether node `n`'s operation preconditions
hold.  The callback is polled at each node boundary — never mid-node — and
a `true` answer stops execution with `GGML_STATUS_ABORTED`. -/
def compute_nodes (abort_callback : ℕ → Bool) (node_ok : ℕ → Bool) :
    List ℕ → ℕ → ggml_status
  | [], _ => ggml_status.GGML_STATUS_SUCCESS
  | n :: rest, k =>
    if abort_callback k then ggml_status.GGML_STATUS_ABORTED
    else if node_ok n then compute_nodes abort_callback node_ok rest (k + 1)
    else ggml_status.GGML_STATUS_FAILED

/-- Modelled from the spec: `ggml_graph_compute` (declared at ggml.h line
2248; body in ggml.c, not under src/): the caller supplies a work buffer at
least as large as `plan.work_size` (a too-small buffer is the allocation
failure), then the nodes run in the graph's stored order with the abort
callback polled at every node boundary. -/
def ggml_graph_compute (abort_callback : ℕ → Bool) (node_ok : ℕ → Bool)
    (g : ggml_cgraph) (plan : ggml_cplan) (work_capacity : ℕ) : ggml_status :=
  if work_capacity < plan.work_size then ggml_status.GGML_STATUS_ALLOC_FAILED
  else compute_nodes abort_callback node_ok g.nodes 0

/-- A small concrete graph used to exercise the planner: three nodes, no
leafs. -/
def plan_demo_graph : ggml_cgraph :=
  { nodes := [1, 4, 2], leafs := [], visited := [] }

/-- The GGUF container magic "GGUF" (`GGUF_MAGIC`, ggml.h line 260), as
bytes. -/
def GGUF_MAGIC : List ℕ := [71, 71, 85, 70]

/-- `GGUF_VERSION` (ggml.h line 262). -/
def GGUF_VERSION : ℕ := 3

/-- Mirror of `struct gguf_context` (opaque in the header, ggml.h line 2507;
the reader lives outside src/): the validated header fields and the
remaining payload. -/
structure gguf_context where
  magic : List ℕ
  version : ℕ
  rest : List ℕ
deriving DecidableEq

/-- A little-endian 32-bit field ("all multi-byte fields are fixed
little-endian width"). -/
def read_u32_le (b0 b1 b2 b3 : ℕ) : ℕ :=
  b0 + 256 * (b1 + 256 * (b2 + 256 * b3))

/-- Modelled from the spec: `gguf_init_from_file` (declared at ggml.h line
2516; the reader is not under src/): "Readers must validate magic and
version before trusting offsets"; a malformed container is "reported via a
nullable-result / explicit failure return from the loading routine, never a
fatal abort".  Wrong magic, unsupported version (the reader accepts the
current version 3 and the previous version 2) or a truncated header yield
`none`; only a fully validated context is ever returned. -/
def gguf_init_from_file (bytes : List ℕ) : Option gguf_context :=
  match bytes with
  | m0 :: m1 :: m2 :: m3 :: v0 :: v1 :: v2 :: v3 :: rest =>
    if [m0, m1, m2, m3] ≠ GGUF_MAGIC then none
    else if read_u32_le v0 v1 v2 v3 ≠ GGUF_VERSION ∧
        read_u32_le v0 v1 v2 v3 ≠ 2 then none
    else some { magic := [m0, m1, m2, m3],
                version := read_u32_le v0 v1 v2 v3, rest := rest }
  | _ => none

end Ggml

namespace Ggml

/-- Every type descriptor has a positive block size. -/
theorem ggml_blck_size_pos (ty : ggml_type) : 0 < ggml_blck_size ty := by
  cases ty <;> decide

/-- When the row length is a whole number of blocks, the ceiling in
`ggml_row_size` collapses to exact division. -/
theorem ggml_row_size_of_dvd (ty : ggml_type) (ne : ℕ)
    (h : ggml_blck_size ty ∣ ne) :
    ggml_row_size ty ne = ne / ggml_blck_size ty * ggml_type_size ty := by
  obtain ⟨q, rfl⟩ := h
  have hb : 0 < ggml_blck_size ty := ggml_blck_size_pos ty
  unfold ggml_row_size
  congr 1
  have h1 : ggml_blck_size ty * q + ggml_blck_size ty - 1 =
      ggml_blck_size ty * q + (ggml_blck_size ty - 1) := by omega
  rw [h1, Nat.mul_add_div hb, Nat.mul_div_cancel_left _ hb,
    Nat.div_eq_of_lt (by omega), Nat.add_zero]

/-- C1: for every tensor with a valid shape (positive extents, and for
block-compressed element types a row length that is a whole number of codec
blocks), the byte size reported by `ggml_nbytes` on a freshly allocated
contiguous tensor equals `ggml_row_size(type, ne[0]) * ne[1] * ne[2] * ne[3]`
with `ggml_row_size(type, n) = ceil(n / block_size) * bytes_per_block`; and
the same block formula governs the fresh tensor's stride fields:
`nb[1] = ggml_row_size(type, ne[0])`, `nb[2] = nb[1]*ne[1]`,
`nb[3] = nb[2]*ne[2]`. -/
theorem nbytes_eq_row_size_mul (ty : ggml_type) (ne0 ne1 ne2 ne3 id data : ℕ)
    (h0 : 1 ≤ ne0) (h1 : 1 ≤ ne1) (h2 : 1 ≤ ne2) (h3 : 1 ≤ ne3)
    (hdvd : ggml_blck_size ty ∣ ne0) :
    ggml_nbytes (ggml_new_tensor_4d ty ne0 ne1 ne2 ne3 id data) =
      ggml_row_size ty ne0 * ne1 * ne2 * ne3 ∧
    (ggml_new_tensor_4d ty ne0 ne1 ne2 ne3 id data).nb0 = ggml_type_size ty ∧
    (ggml_new_tensor_4d ty ne0 ne1 ne2 ne3 id data).nb1 = ggml_row_size ty ne0 ∧
    (ggml_new_tensor_4d ty ne0 ne1 ne2 ne3 id data).nb2 =
      ggml_row_size ty ne0 * ne1 ∧
    (ggml_new_tensor_4d ty ne0 ne1 ne2 ne3 id data).nb3 =
      ggml_row_size ty ne0 * ne1 * ne2 := by
  have hb : 0 < ggml_blck_size ty := ggml_blck_size_pos ty
  have hrow : ggml_row_size ty ne0 = ne0 / ggml_blck_size ty * ggml_type_size ty :=
    ggml_row_size_of_dvd ty ne0 hdvd
  obtain ⟨m1, rfl⟩ : ∃ m, ne1 = m + 1 := ⟨ne1 - 1, by omega⟩
  obtain ⟨m2, rfl⟩ : ∃ m, ne2 = m + 1 := ⟨ne2 - 1, by omega⟩
  obtain ⟨m3, rfl⟩ : ∃ m, ne3 = m + 1 := ⟨ne3 - 1, by omega⟩
  unfold ggml_new_tensor_4d ggml_nbytes
  simp only
  rw [hrow]
  by_cases hone : ggml_blck_size ty = 1
  · rw [if_pos hone]
    obtain ⟨m0, rfl⟩ : ∃ m, ne0 = m + 1 := ⟨ne0 - 1, by omega⟩
    simp only [hone, Nat.div_one, Nat.add_sub_cancel, one_mul]
    refine ⟨by ring, ?_, ?_, ?_, ?_⟩ <;> first | trivial | ring
  · rw [if_neg hone]
    obtain ⟨q, hq⟩ := hdvd
    have hq0 : ne0 / ggml_blck_size ty = q := by
      rw [hq, Nat.mul_div_cancel_left _ hb]
    have hfloor : ne0 * ggml_type_size ty / ggml_blck_size ty =
        q * ggml_type_size ty := by
      rw [hq, Nat.mul_assoc, Nat.mul_div_cancel_left _ hb]
    simp only [hq0, Nat.add_sub_cancel, hfloor]
    refine ⟨by ring, ?_, ?_, ?_, ?_⟩ <;> first | trivial | ring

/-- Witness for C1: an f32 tensor of shape 7x2x3x5 and a Q8_0 tensor of shape
64x2x3x5 (block size 32, 34 bytes per block: 64/32*34 = 68 bytes per row,
68*2*3*5 = 2040 bytes total). -/
theorem nbytes_eq_row_size_mul_witness :
    ggml_nbytes (ggml_new_tensor_4d ggml_type.Q8_0 64 2 3 5 0 0) =
      ggml_row_size ggml_type.Q8_0 64 * 2 * 3 * 5 := by
  exact (nbytes_eq_row_size_mul ggml_type.Q8_0 64 2 3 5 0 0
    (by decide) (by decide) (by decide) (by decide) (by decide)).1

/-- C7: `ggml_reshape` preserves the total element count — the reshape is
rejected (fatal assertion path, modelled as `none`) when the counts differ
or when the source is not contiguous; and under the precondition that the
source is contiguous and the counts match, the failure branch is
unreachable (the result is always `some`). -/
theorem reshape_count_and_contiguity (a : ggml_tensor) (ne0 ne1 ne2 ne3 id : ℕ) :
    (∀ t, ggml_reshape a ne0 ne1 ne2 ne3 id = some t →
      ggml_nelements t = ggml_nelements a) ∧
    (ggml_is_contiguous a = false → ggml_reshape a ne0 ne1 ne2 ne3 id = none) ∧
    (ggml_nelements a ≠ ne0 * ne1 * ne2 * ne3 →
      ggml_reshape a ne0 ne1 ne2 ne3 id = none) ∧
    (ggml_is_contiguous a = true → ggml_nelements a = ne0 * ne1 * ne2 * ne3 →
      ∃ t, ggml_reshape a ne0 ne1 ne2 ne3 id = some t) := by
  unfold ggml_reshape
  by_cases h : ggml_is_contiguous a = true ∧ ggml_nelements a = ne0 * ne1 * ne2 * ne3
  · rw [if_pos h]
    refine ⟨?_, ?_, ?_, ?_⟩
    · intro t ht
      cases ht
      have hcount := h.2
      unfold ggml_nelements at hcount ⊢
      simp [ggml_new_tensor_4d]
      exact hcount.symm
    · intro hfalse
      rw [h.1] at hfalse
      cases hfalse
    · intro hne
      exact absurd h.2 hne
    · intro _ _
      exact ⟨_, rfl⟩
  · rw [if_neg h]
    refine ⟨?_, ?_, ?_, ?_⟩
    · intro t ht
      cases ht
    · intro _
      rfl
    · intro _
      rfl
    · intro h1 h2
      exact absurd ⟨h1, h2⟩ h

/-- Witness for C7: reshaping a fresh contiguous 2x3x1x1 f32 tensor to
6x1x1x1 succeeds, and the view has the same element count. -/
theorem reshape_count_and_contiguity_witness :
    ggml_is_contiguous (ggml_new_tensor_4d ggml_type.F32 2 3 1 1 0 0) = true ∧
    ∃ t, ggml_reshape (ggml_new_tensor_4d ggml_type.F32 2 3 1 1 0 0)
      6 1 1 1 1 = some t := by
  refine ⟨by decide, ?_⟩
  exact (reshape_count_and_contiguity (ggml_new_tensor_4d ggml_type.F32 2 3 1 1 0 0)
    6 1 1 1 1).2.2.2 (by decide) (by decide)

/-- C10: `ggml_transpose(ctx, a)` is extensionally equal to
`ggml_permute(ctx, a, 1, 0, 2, 3)`: the permutation is accepted, the two
views agree on element type, all extent/stride pairs (the first two swapped
relative to `a`), view source, view offset, source back-reference and
storage, and both give each element the address the source gives it at
transposed indices; they differ only in the recorded operation tag. -/
theorem transpose_eq_permute_1_0_2_3 (a : ggml_tensor) (id : ℕ) :
    ∃ p, ggml_permute a 1 0 2 3 id = some p ∧
      tensor_ext_eq p (ggml_transpose a id) ∧
      (ggml_transpose a id).ne0 = a.ne1 ∧ (ggml_transpose a id).ne1 = a.ne0 ∧
      (ggml_transpose a id).nb0 = a.nb1 ∧ (ggml_transpose a id).nb1 = a.nb0 ∧
      (ggml_transpose a id).ne2 = a.ne2 ∧ (ggml_transpose a id).ne3 = a.ne3 ∧
      (ggml_transpose a id).nb2 = a.nb2 ∧ (ggml_transpose a id).nb3 = a.nb3 ∧
      (ggml_transpose a id).data = a.data ∧
      (∀ i0 i1 i2 i3, elem_addr (ggml_transpose a id) i0 i1 i2 i3 =
        elem_addr a i1 i0 i2 i3) := by
  refine ⟨{ (ggml_transpose a id) with op := ggml_op.permute, op_params := [1, 0, 2, 3] }, ?_, ?_, ?_, ?_, ?_, ?_, ?_, ?_, ?_, ?_, ?_, ?_⟩
  · show ggml_permute a 1 0 2 3 id = _
    unfold ggml_permute
    rw [if_pos (by norm_num)]
    simp [ggml_transpose, ggml_view_tensor, set4]
  · simp [tensor_ext_eq, ggml_transpose, ggml_view_tensor]
  all_goals simp [ggml_transpose, ggml_view_tensor, elem_addr]
  all_goals intros
  all_goals ring

/-- Out of fuel, the DFS is the identity (never reached from
`ggml_build_forward_expand`, which supplies fuel `i + 1`). -/
theorem visit_parents_zero (ctx : List tensor_node) (i : ℕ) (g : ggml_cgraph) :
    ggml_visit_parents ctx 0 i g = g := by
  rw [ggml_visit_parents]

/-- Unfolding of one DFS step. -/
theorem visit_parents_succ (ctx : List tensor_node) (fuel i : ℕ) (g : ggml_cgraph) :
    ggml_visit_parents ctx (fuel + 1) i g =
      if i ∈ g.visited then g
      else if (node_at ctx i).op = ggml_op.none then
        { visit_src_list ctx fuel (srcOf ctx i) { g with visited := i :: g.visited } with
          leafs := (visit_src_list ctx fuel (srcOf ctx i)
            { g with visited := i :: g.visited }).leafs ++ [i] }
      else
        { visit_src_list ctx fuel (srcOf ctx i) { g with visited := i :: g.visited } with
          nodes := (visit_src_list ctx fuel (srcOf ctx i)
            { g with visited := i :: g.visited }).nodes ++ [i] } := by
  rw [ggml_visit_parents]
  rfl

/-- Unfolding of the empty back-reference loop. -/
theorem visit_src_list_nil (ctx : List tensor_node) (fuel : ℕ) (g : ggml_cgraph) :
    visit_src_list ctx fuel [] g = g := by
  rw [visit_src_list]

/-- Unfolding of one step of the back-reference loop. -/
theorem visit_src_list_cons (ctx : List tensor_node) (fuel j : ℕ) (rest : List ℕ)
    (g : ggml_cgraph) :
    visit_src_list ctx fuel (j :: rest) g =
      visit_src_list ctx fuel rest (ggml_visit_parents ctx fuel j g) := by
  rw [visit_src_list]

/-- The dedup set only grows, at every fuel level, for both the DFS and the
back-reference loop. -/
theorem visited_mono_all (ctx : List tensor_node) : ∀ fuel,
    (∀ i g x, x ∈ g.visited → x ∈ (ggml_visit_parents ctx fuel i g).visited) ∧
    (∀ l g x, x ∈ g.visited → x ∈ (visit_src_list ctx fuel l g).visited) := by
  intro fuel
  induction fuel with
  | zero =>
    constructor
    · intro i g x hx
      rw [visit_parents_zero]
      exact hx
    · intro l
      induction l with
      | nil =>
        intro g x hx
        rw [visit_src_list_nil]
        exact hx
      | cons j rest ihl =>
        intro g x hx
        rw [visit_src_list_cons]
        exact ihl _ _ (by rw [visit_parents_zero]; exact hx)
  | succ fuel ihf =>
    have hpar : ∀ i g x, x ∈ g.visited →
        x ∈ (ggml_visit_parents ctx (fuel + 1) i g).visited := by
      intro i g x hx
      rw [visit_parents_succ]
      by_cases hv : i ∈ g.visited
      · rw [if_pos hv]
        exact hx
      · rw [if_neg hv]
        have hx2 : x ∈ ({ g with visited := i :: g.visited } : ggml_cgraph).visited :=
          List.mem_cons_of_mem i hx
        have hmain := ihf.2 (srcOf ctx i) { g with visited := i :: g.visited } x hx2
        by_cases hop : (node_at ctx i).op = ggml_op.none
        · rw [if_pos hop]
          exact hmain
        · rw [if_neg hop]
          exact hmain
    refine ⟨hpar, ?_⟩
    intro l
    induction l with
    | nil =>
      intro g x hx
      rw [visit_src_list_nil]
      exact hx
    | cons j rest ihl =>
      intro g x hx
      rw [visit_src_list_cons]
      exact ihl _ _ (hpar j g x hx)

/-- A tensor already in the dedup set is not re-visited: the DFS is the
identity on it. -/
theorem visit_of_mem_visited (ctx : List tensor_node) (fuel i : ℕ)
    (g : ggml_cgraph) (h : i ∈ g.visited) :
    ggml_visit_parents ctx fuel i g = g := by
  cases fuel with
  | zero => rw [visit_parents_zero]
  | succ fuel => rw [visit_parents_succ, if_pos h]

/-- After expansion from output `i`, the dedup set contains `i`. -/
theorem mem_visited_expand (ctx : List tensor_node) (g : ggml_cgraph) (i : ℕ) :
    i ∈ (ggml_build_forward_expand ctx g i).visited := by
  unfold ggml_build_forward_expand
  rw [visit_parents_succ]
  by_cases hv : i ∈ g.visited
  · rw [if_pos hv]
    exact hv
  · rw [if_neg hv]
    have hbase : i ∈ ({ g with visited := i :: g.visited } : ggml_cgraph).visited :=
      List.mem_cons_self i g.visited
    have hmain := (visited_mono_all ctx i).2 (srcOf ctx i)
      { g with visited := i :: g.visited } i hbase
    by_cases hop : (node_at ctx i).op = ggml_op.none
    · rw [if_pos hop]
      exact hmain
    · rw [if_neg hop]
      exact hmain

/-- C8: `ggml_build_forward_expand` is idempotent with respect to the
deduplication set: expanding the same output tensor a second time changes
nothing — the whole graph state (node sequence, leaf sequence, their lengths
and the dedup set) is identical, because the second call finds the tensor in
the visited hash set and inserts and re-visits nothing. -/
theorem build_forward_expand_idempotent (ctx : List tensor_node)
    (g : ggml_cgraph) (i : ℕ) :
    ggml_build_forward_expand ctx (ggml_build_forward_expand ctx g i) i =
      ggml_build_forward_expand ctx g i :=
  visit_of_mem_visited ctx (i + 1) i _ (mem_visited_expand ctx g i)

/-- The main invariant of the depth-first graph expansion: on a wellformed
(bump-allocated, hence acyclic) arena, a visit of tensor `i` with enough
fuel, starting from a graph satisfying the running invariant whose DFS
stack lies strictly above `i`, satisfies `VisitConcl`. -/
theorem visit_parents_spec (ctx : List tensor_node) (hwf : wf_context ctx) :
    ∀ fuel i g, i < fuel → graph_inv ctx g → (∀ j, pending g j → i < j) →
      VisitConcl ctx i g (ggml_visit_parents ctx fuel i g) := by
  intro fuel
  induction fuel with
  | zero =>
    intro i g hi
    exact absurd hi (Nat.not_lt_zero i)
  | succ fuel ih =>
    have hlist : ∀ l, (∀ x ∈ l, x < fuel) → ∀ b g, (∀ x ∈ l, x < b) →
        graph_inv ctx g → (∀ j, pending g j → b ≤ j) →
        VisitListConcl ctx b l g (visit_src_list ctx fuel l g) := by
      intro l
      induction l with
      | nil =>
        intro _ b g _ hinv _
        rw [visit_src_list_nil]
        exact ⟨⟨[], by simp⟩, ⟨[], by simp⟩, fun x hx => hx, fun x hx => Or.inl hx,
          fun j => Iff.rfl, hinv, by simp⟩
      | cons x rest ihl =>
        intro hfuel b g hb hinv hpend
        rw [visit_src_list_cons]
        have hxf : x < fuel := hfuel x (List.mem_cons_self x rest)
        have hxb : x < b := hb x (List.mem_cons_self x rest)
        have hspec := ih x g hxf hinv
          (fun j hj => lt_of_lt_of_le hxb (hpend j hj))
        obtain ⟨⟨dn1, hdn1⟩, ⟨dl1, hdl1⟩, hmono1, hnew1, hpiff1, hinv1, hxvis⟩ := hspec
        have hrest := ihl (fun y hy => hfuel y (List.mem_cons_of_mem x hy)) b
          (ggml_visit_parents ctx fuel x g)
          (fun y hy => hb y (List.mem_cons_of_mem x hy)) hinv1
          (fun j hj => hpend j ((hpiff1 j).mp hj))
        obtain ⟨⟨dn2, hdn2⟩, ⟨dl2, hdl2⟩, hmono2, hnew2, hpiff2, hinv2, hrestvis⟩ := hrest
        refine ⟨⟨dn1 ++ dn2, by rw [hdn2, hdn1, List.append_assoc]⟩,
                ⟨dl1 ++ dl2, by rw [hdl2, hdl1, List.append_assoc]⟩,
                fun y hy => hmono2 y (hmono1 y hy), ?_,
                fun j => (hpiff2 j).trans (hpiff1 j), hinv2, ?_⟩
        · intro y hy
          rcases hnew2 y hy with h2 | h2
          · rcases hnew1 y h2 with h1 | h1
            · exact Or.inl h1
            · exact Or.inr (lt_of_le_of_lt h1 hxb)
          · exact Or.inr h2
        · intro y hy
          rcases List.mem_cons.mp hy with rfl | hy2
          · exact hmono2 y hxvis
          · exact hrestvis y hy2
    intro i g hi hinv hpend
    rw [visit_parents_succ]
    by_cases hvis : i ∈ g.visited
    · rw [if_pos hvis]
      refine ⟨⟨[], by simp⟩, ⟨[], by simp⟩, fun x hx => hx, fun x hx => Or.inl hx,
        fun j => Iff.rfl, hinv, hvis⟩
    · rw [if_neg hvis]
      have hnotplaced : i ∉ placed g := fun hmem => hvis (hinv.2.2 i hmem)
      have hpend1 : ∀ j, pending ({ g with visited := i :: g.visited }) j ↔
          (j = i ∨ pending g j) := by
        intro j
        constructor
        · rintro ⟨hv, hp⟩
          rcases List.mem_cons.mp hv with rfl | hv2
          · exact Or.inl rfl
          · exact Or.inr ⟨hv2, hp⟩
        · rintro (rfl | ⟨hv, hp⟩)
          · exact ⟨List.mem_cons_self j g.visited, hnotplaced⟩
          · exact ⟨List.mem_cons_of_mem i hv, hp⟩
      have hinv1 : graph_inv ctx ({ g with visited := i :: g.visited }) := by
        obtain ⟨ht, hn, hsub⟩ := hinv
        exact ⟨ht, hn, fun j hj => List.mem_cons_of_mem i (hsub j hj)⟩
      have hsrci : ∀ x ∈ srcOf ctx i, x < i := fun x hx => hwf i x hx
      have hsrcfuel : ∀ x ∈ srcOf ctx i, x < fuel := fun x hx =>
        lt_of_lt_of_le (hsrci x hx) (by omega)
      have hpendb : ∀ j, pending ({ g with visited := i :: g.visited }) j → i ≤ j := by
        intro j hj
        rcases (hpend1 j).mp hj with rfl | hj2
        · exact le_refl j
        · exact le_of_lt (hpend j hj2)
      have hlspec := hlist (srcOf ctx i) hsrcfuel i
        { g with visited := i :: g.visited } hsrci hinv1 hpendb
      obtain ⟨⟨dn, hdn⟩, ⟨dl, hdl⟩, hmono2, hnew2, hpiff2, hinv2, hallvis⟩ := hlspec
      have hvismono : ∀ x ∈ g.visited,
          x ∈ (visit_src_list ctx fuel (srcOf ctx i)
            { g with visited := i :: g.visited }).visited :=
        fun x hx => hmono2 x (List.mem_cons_of_mem i hx)
      have hivis2 : i ∈ (visit_src_list ctx fuel (srcOf ctx i)
          { g with visited := i :: g.visited }).visited :=
        hmono2 i (List.mem_cons_self i g.visited)
      have hipend2 : pending (visit_src_list ctx fuel (srcOf ctx i)
          { g with visited := i :: g.visited }) i :=
        (hpiff2 i).mpr ((hpend1 i).mpr (Or.inl rfl))
      have hsplaced : ∀ s ∈ srcOf ctx i,
          s ∈ placed (visit_src_list ctx fuel (srcOf ctx i)
            { g with visited := i :: g.visited }) := by
        intro s hs
        have hsv := hallvis s hs
        by_contra hnp
        have hps := (hpiff2 s).mp ⟨hsv, hnp⟩
        rcases (hpend1 s).mp hps with rfl | hps2
        · exact absurd (hsrci s hs) (lt_irrefl s)
        · have h1 := hsrci s hs
          have h2 := hpend s hps2
          omega
      have hnew2g : ∀ x ∈ (visit_src_list ctx fuel (srcOf ctx i)
          { g with visited := i :: g.visited }).visited,
          x ∈ g.visited ∨ x ≤ i := by
        intro x hx
        rcases hnew2 x hx with h1 | h1
        · rcases List.mem_cons.mp h1 with rfl | h2
          · exact Or.inr (le_refl x)
          · exact Or.inl h2
        · exact Or.inr (le_of_lt h1)
      have hpiffg : ∀ j, j ≠ i →
          (pending (visit_src_list ctx fuel (srcOf ctx i)
            { g with visited := i :: g.visited }) j ↔ pending g j) := by
        intro j hne
        rw [hpiff2 j, hpend1 j]
        constructor
        · rintro (rfl | h)
          · exact absurd rfl hne
          · exact h
        · exact Or.inr
      set g2 := visit_src_list ctx fuel (srcOf ctx i)
        { g with visited := i :: g.visited } with hg2def
      obtain ⟨htopo2, hnodup2, hsub2⟩ := hinv2
      by_cases hop : (node_at ctx i).op = ggml_op.none
      · rw [if_pos hop]
        have hplaced_perm : List.Perm (placed { g2 with leafs := g2.leafs ++ [i] })
            (i :: placed g2) := by
          show List.Perm (g2.nodes ++ (g2.leafs ++ [i])) (i :: (g2.nodes ++ g2.leafs))
          have h1 : g2.nodes ++ (g2.leafs ++ [i]) = (g2.nodes ++ g2.leafs) ++ [i] := by
            simp
          rw [h1]
          exact List.perm_append_singleton i (g2.nodes ++ g2.leafs)
        have hmem_placed : ∀ j, j ∈ placed { g2 with leafs := g2.leafs ++ [i] } ↔
            (j = i ∨ j ∈ placed g2) := by
          intro j
          rw [hplaced_perm.mem_iff]
          simp
        refine ⟨⟨dn, hdn⟩, ⟨dl ++ [i], by rw [hdl, List.append_assoc]⟩,
          hvismono, hnew2g, ?_, ⟨?_, ?_, ?_⟩, hivis2⟩
        · intro j
          by_cases hne : j = i
          · subst hne
            constructor
            · rintro ⟨_, hp⟩
              exact absurd ((hmem_placed j).mpr (Or.inl rfl)) hp
            · rintro ⟨hv, _⟩
              exact absurd hv hvis
          · rw [← hpiffg j hne]
            constructor
            · rintro ⟨hv, hp⟩
              exact ⟨hv, fun hmem => hp ((hmem_placed j).mpr (Or.inr hmem))⟩
            · rintro ⟨hv, hp⟩
              refine ⟨hv, fun hmem => ?_⟩
              rcases (hmem_placed j).mp hmem with rfl | h2
              · exact hne rfl
              · exact hp h2
        · intro k hk s hs
          have hres := htopo2 k hk s hs
          rcases hres with h1 | h1
          · exact Or.inl h1
          · exact Or.inr (List.mem_append_left [i] h1)
        · rw [hplaced_perm.nodup_iff, List.nodup_cons]
          exact ⟨hipend2.2, hnodup2⟩
        · intro j hj
          rcases (hmem_placed j).mp hj with rfl | h2
          · exact hivis2
          · exact hsub2 j h2
      · rw [if_neg hop]
        have hplaced_perm : List.Perm (placed { g2 with nodes := g2.nodes ++ [i] })
            (i :: placed g2) := by
          show List.Perm ((g2.nodes ++ [i]) ++ g2.leafs) (i :: (g2.nodes ++ g2.leafs))
          have h1 : (g2.nodes ++ [i]) ++ g2.leafs = g2.nodes ++ i :: g2.leafs := by
            simp
          rw [h1]
          exact List.perm_middle
        have hmem_placed : ∀ j, j ∈ placed { g2 with nodes := g2.nodes ++ [i] } ↔
            (j = i ∨ j ∈ placed g2) := by
          intro j
          rw [hplaced_perm.mem_iff]
          simp
        refine ⟨⟨dn ++ [i], by rw [hdn, List.append_assoc]⟩, ⟨dl, hdl⟩,
          hvismono, hnew2g, ?_, ⟨?_, ?_, ?_⟩, hivis2⟩
        · intro j
          by_cases hne : j = i
          · subst hne
            constructor
            · rintro ⟨_, hp⟩
              exact absurd ((hmem_placed j).mpr (Or.inl rfl)) hp
            · rintro ⟨hv, _⟩
              exact absurd hv hvis
          · rw [← hpiffg j hne]
            constructor
            · rintro ⟨hv, hp⟩
              exact ⟨hv, fun hmem => hp ((hmem_placed j).mpr (Or.inr hmem))⟩
            · rintro ⟨hv, hp⟩
              refine ⟨hv, fun hmem => ?_⟩
              rcases (hmem_placed j).mp hmem with rfl | h2
              · exact hne rfl
              · exact hp h2
        · intro k hk s hs
          have hklen : k < g2.nodes.length + 1 := by
            simpa using hk
          by_cases hkcase : k < g2.nodes.length
          · have hget : ({ g2 with nodes := g2.nodes ++ [i] } : ggml_cgraph).nodes.get
                ⟨k, hk⟩ = g2.nodes.get ⟨k, hkcase⟩ := by
              show (g2.nodes ++ [i]).get ⟨k, hk⟩ = g2.nodes.get ⟨k, hkcase⟩
              rw [List.get_eq_getElem, List.get_eq_getElem, List.getElem_append_left]
            rw [hget] at hs
            have hres := htopo2 k hkcase s hs
            rcases hres with h1 | h1
            · refine Or.inl ?_
              show s ∈ (g2.nodes ++ [i]).take k
              rw [List.take_append_eq_append_take, Nat.sub_eq_zero_of_le (le_of_lt hkcase)]
              simpa using h1
            · exact Or.inr h1
          · have hkeq : k = g2.nodes.length := by omega
            have hget : ({ g2 with nodes := g2.nodes ++ [i] } : ggml_cgraph).nodes.get
                ⟨k, hk⟩ = i := by
              show (g2.nodes ++ [i]).get ⟨k, hk⟩ = i
              rw [List.get_eq_getElem, List.getElem_append_right] <;> simp [hkeq]
            rw [hget] at hs
            have hsp := hsplaced s hs
            rcases List.mem_append.mp hsp with h1 | h1
            · refine Or.inl ?_
              show s ∈ (g2.nodes ++ [i]).take k
              rw [hkeq, List.take_left]
              exact h1
            · exact Or.inr h1
        · rw [hplaced_perm.nodup_iff, List.nodup_cons]
          exact ⟨hipend2.2, hnodup2⟩
        · intro j hj
          rcases (hmem_placed j).mp hj with rfl | h2
          · exact hivis2
          · exact hsub2 j h2

/-- A fresh graph satisfies the running invariant. -/
theorem graph_inv_empty (ctx : List tensor_node) : graph_inv ctx empty_graph := by
  refine ⟨?_, ?_, ?_⟩
  · intro k hk
    simp [empty_graph] at hk
  · simp [placed, empty_graph]
  · intro j hj
    simp [placed, empty_graph] at hj

/-- A fresh graph has an empty DFS stack. -/
theorem pending_empty (j : ℕ) : ¬ pending empty_graph j := by
  rintro ⟨hv, _⟩
  simp [empty_graph] at hv

/-- Sequential expansion from any list of outputs preserves the running
invariant and keeps the DFS stack empty. -/
theorem expand_outputs_inv_aux (ctx : List tensor_node) (hwf : wf_context ctx) :
    ∀ (outs : List ℕ) (g : ggml_cgraph), graph_inv ctx g → (∀ j, ¬ pending g j) →
      graph_inv ctx (outs.foldl (ggml_build_forward_expand ctx) g) ∧
      ∀ j, ¬ pending (outs.foldl (ggml_build_forward_expand ctx) g) j := by
  intro outs
  induction outs with
  | nil =>
    intro g hinv hpend
    exact ⟨hinv, hpend⟩
  | cons o rest ih =>
    intro g hinv hpend
    have hspec := visit_parents_spec ctx hwf (o + 1) o g (by omega) hinv
      (fun j hj => absurd hj (hpend j))
    obtain ⟨_, _, _, _, hpiff, hinv1, _⟩ := hspec
    have hpend1 : ∀ j, ¬ pending (ggml_build_forward_expand ctx g o) j :=
      fun j hj => hpend j ((hpiff j).mp hj)
    simpa using ih (ggml_build_forward_expand ctx g o) hinv1 hpend1

/-- `wf_context` follows from its restriction to in-range indices
(out-of-range indices have no back-references). -/
theorem wf_context_of_ball (ctx : List tensor_node)
    (h : ∀ i, (hi : i < ctx.length) → ∀ j ∈ srcAll (ctx.get ⟨i, hi⟩), j < i) :
    wf_context ctx := by
  intro i j hj
  by_cases hi : i < ctx.length
  · have hnode : node_at ctx i = ctx.get ⟨i, hi⟩ := by
      unfold node_at
      rw [List.get?_eq_get hi]
      rfl
    rw [srcOf, hnode] at hj
    exact h i hi j hj
  · have hnode : node_at ctx i = { op := ggml_op.none, src := [], view_src := none } := by
      unfold node_at
      rw [List.get?_eq_none.mpr (le_of_not_lt hi)]
      rfl
    rw [srcOf, hnode] at hj
    simp [srcAll] at hj

/-- C2: on any acyclic operation chain (a bump-allocated arena, where all
back-references point strictly downward), the graph produced by
`ggml_build_forward_expand` — from one or several outputs in sequence — has
a node sequence in valid topological order: every source of every node
appears earlier in the node sequence or in the leaf sequence, and no tensor
appears twice in the node sequence. -/
theorem build_forward_expand_topological (ctx : List tensor_node)
    (outs : List ℕ) (hwf : wf_context ctx) :
    topo_order_ok ctx (expand_outputs ctx outs) ∧
    (expand_outputs ctx outs).nodes.Nodup := by
  have hmain := expand_outputs_inv_aux ctx hwf outs empty_graph
    (graph_inv_empty ctx) pending_empty
  obtain ⟨⟨htopo, hnodup, _⟩, _⟩ := hmain
  refine ⟨htopo, ?_⟩
  exact List.Nodup.of_append_left hnodup

/-- Witness for C2: the header's own example graph `f(x) = a*x^2 + b`,
expanded from the output tensor at index 5. -/
theorem build_forward_expand_topological_witness :
    topo_order_ok ctx_axb (expand_outputs ctx_axb [5]) ∧
    (expand_outputs ctx_axb [5]).nodes.Nodup :=
  build_forward_expand_topological ctx_axb [5]
    (wf_context_of_ball ctx_axb (by decide))

/-- A backward rule contributes nothing to a tensor that is not among the
node's sources. -/
theorem backward_contrib_not_src (ctx : List tensor_node) (v : ℕ → ℚ) (n : ℕ)
    (gn : ℚ) (t : ℕ) (h : t ∉ (node_at ctx n).src) :
    backward_contrib ctx v n gn t = 0 := by
  unfold backward_contrib
  rcases hsrc : (node_at ctx n).src with _ | ⟨s0, _ | ⟨s1, _ | ⟨s2, rest⟩⟩⟩ <;>
    rcases hop : (node_at ctx n).op <;>
    simp_all

/-- A backward sweep over nodes that never consume tensor `a` leaves the
gradient of `a` untouched. -/
theorem foldl_backward_no_consume (ctx : List tensor_node) (v : ℕ → ℚ) (a : ℕ) :
    ∀ (l : List ℕ) (s : ℕ → ℚ), (∀ n ∈ l, a ∉ (node_at ctx n).src) →
      (l.foldl (backward_step ctx v) s) a = s a := by
  intro l
  induction l with
  | nil =>
    intro s _
    rfl
  | cons n rest ih =>
    intro s h
    have hstep : (backward_step ctx v s n) a = s a := by
      show s a + backward_contrib ctx v n (s n) a = s a
      rw [backward_contrib_not_src ctx v n (s n) a (h n (List.mem_cons_self n rest))]
      ring
    simp only [List.foldl_cons]
    rw [ih _ (fun x hx => h x (List.mem_cons_of_mem n hx))]
    exact hstep

/-- The gradient-accumulation identity of the backward sweep, for an
arbitrary seed: after processing a duplicate-free node list in reverse
topological order, each tensor's gradient equals its seed plus the sum of
the backward-rule contributions of all its consumers, each evaluated at that
consumer's own final (fully accumulated) gradient. -/
theorem backward_fold_accumulates (ctx : List tensor_node) (v : ℕ → ℚ) :
    ∀ (nodes : List ℕ), nodes.Nodup →
      (∀ k, (hk : k < nodes.length) →
        ∀ s ∈ (node_at ctx (nodes.get ⟨k, hk⟩)).src,
          s ∈ nodes.take k ∨ s ∉ nodes) →
      ∀ (seed : ℕ → ℚ) (t : ℕ),
        nodes.reverse.foldl (backward_step ctx v) seed t =
          seed t + ((nodes.map (fun n => backward_contrib ctx v n
            (nodes.reverse.foldl (backward_step ctx v) seed n) t)).sum) := by
  intro nodes
  induction nodes using List.reverseRecOn with
  | nil =>
    intro _ _ seed t
    simp
  | append_singleton ns a ih =>
    intro hnd htopo seed t
    have hns_nd : ns.Nodup := hnd.of_append_left
    have ha_not_mem : a ∉ ns := by
      have hdisj := List.disjoint_of_nodup_append hnd
      intro hmem
      exact hdisj hmem (List.mem_singleton_self a)
    have hgeteq : ∀ k, (hk : k < ns.length) → (hk2 : k < (ns ++ [a]).length) →
        (ns ++ [a]).get ⟨k, hk2⟩ = ns.get ⟨k, hk⟩ := by
      intro k hk hk2
      rw [List.get_eq_getElem, List.get_eq_getElem, List.getElem_append_left]
    have htopo_ns : ∀ k, (hk : k < ns.length) →
        ∀ s ∈ (node_at ctx (ns.get ⟨k, hk⟩)).src, s ∈ ns.take k ∨ s ∉ ns := by
      intro k hk s hs
      have hk2 : k < (ns ++ [a]).length := by
        simp
        omega
      have hres := htopo k hk2 s (by rw [hgeteq k hk hk2]; exact hs)
      rcases hres with h1 | h1
      · left
        rw [List.take_append_eq_append_take,
          Nat.sub_eq_zero_of_le (le_of_lt hk)] at h1
        simpa using h1
      · right
        exact fun hmem => h1 (List.mem_append_left [a] hmem)
    have ha_nonsrc : ∀ n ∈ ns, a ∉ (node_at ctx n).src := by
      intro n hn hmem
      obtain ⟨⟨k, hk⟩, hget⟩ := List.mem_iff_get.mp hn
      have hk2 : k < (ns ++ [a]).length := by
        simp
        omega
      have hres := htopo k hk2 a (by rw [hgeteq k hk hk2, hget]; exact hmem)
      rcases hres with h1 | h1
      · rw [List.take_append_eq_append_take,
          Nat.sub_eq_zero_of_le (le_of_lt hk)] at h1
        simp at h1
        exact ha_not_mem (List.take_subset k ns h1)
      · exact h1 (List.mem_append_right ns (List.mem_singleton_self a))
    have ha_selfsrc : a ∉ (node_at ctx a).src := by
      intro hmem
      have hk2 : ns.length < (ns ++ [a]).length := by
        simp
      have hget2 : (ns ++ [a]).get ⟨ns.length, hk2⟩ = a := by
        rw [List.get_eq_getElem, List.getElem_append_right] <;> simp
      have hres := htopo ns.length hk2 a (by rw [hget2]; exact hmem)
      rcases hres with h1 | h1
      · rw [List.take_left] at h1
        exact ha_not_mem h1
      · exact h1 (List.mem_append_right ns (List.mem_singleton_self a))
    have hrev : (ns ++ [a]).reverse = a :: ns.reverse := by
      simp
    have hfold : ∀ u, (ns ++ [a]).reverse.foldl (backward_step ctx v) seed u =
        ns.reverse.foldl (backward_step ctx v) (backward_step ctx v seed a) u := by
      intro u
      rw [hrev]
      rfl
    have hseed1a : backward_step ctx v seed a a = seed a := by
      show seed a + backward_contrib ctx v a (seed a) a = seed a
      rw [backward_contrib_not_src ctx v a (seed a) a ha_selfsrc]
      ring
    have hGa : (ns ++ [a]).reverse.foldl (backward_step ctx v) seed a = seed a := by
      rw [hfold a, foldl_backward_no_consume ctx v a ns.reverse
        (backward_step ctx v seed a)
        (fun n hn => ha_nonsrc n (List.mem_reverse.mp hn))]
      exact hseed1a
    have hih := ih hns_nd htopo_ns (backward_step ctx v seed a) t
    have hmapeq : ns.map (fun n => backward_contrib ctx v n
          (ns.reverse.foldl (backward_step ctx v) (backward_step ctx v seed a) n) t) =
        ns.map (fun n => backward_contrib ctx v n
          ((ns ++ [a]).reverse.foldl (backward_step ctx v) seed n) t) := by
      refine List.map_congr_left ?_
      intro n _
      rw [hfold n]
    have hseed1t : backward_step ctx v seed a t =
        seed t + backward_contrib ctx v a (seed a) t := rfl
    calc (ns ++ [a]).reverse.foldl (backward_step ctx v) seed t
        = ns.reverse.foldl (backward_step ctx v) (backward_step ctx v seed a) t :=
          hfold t
      _ = backward_step ctx v seed a t + ((ns.map (fun n => backward_contrib ctx v n
            (ns.reverse.foldl (backward_step ctx v) (backward_step ctx v seed a) n)
            t)).sum) := hih
      _ = seed t + backward_contrib ctx v a (seed a) t +
            ((ns.map (fun n => backward_contrib ctx v n
              ((ns ++ [a]).reverse.foldl (backward_step ctx v) seed n) t)).sum) := by
          rw [hseed1t, hmapeq]
      _ = seed t + (((ns ++ [a]).map (fun n => backward_contrib ctx v n
            ((ns ++ [a]).reverse.foldl (backward_step ctx v) seed n) t)).sum) := by
          rw [← hGa]
          simp
          ring

/-- C3: reverse-mode differentiation — the backward sweep seeds the output's
gradient with the multiplicative identity 1 (visible as the seed function in
`ggml_build_backward_expand`), visits the forward nodes in reverse
topological order, and accumulates: for every forward graph whose node
sequence is duplicate-free and topologically ordered, the final gradient of
every tensor equals its seed (1 for the output, 0 otherwise) plus the SUM of
the backward-rule contributions of all consumers — so a source feeding
several consumers receives every contribution, none is overwritten. -/
theorem build_backward_expand_accumulates (ctx : List tensor_node)
    (nodes : List ℕ) (out : ℕ) (v : ℕ → ℚ) (hnd : nodes.Nodup)
    (htopo : ∀ k, (hk : k < nodes.length) →
      ∀ s ∈ (node_at ctx (nodes.get ⟨k, hk⟩)).src,
        s ∈ nodes.take k ∨ s ∉ nodes) :
    ∀ t, ggml_build_backward_expand ctx nodes out v t =
      (if t = out then 1 else 0) +
      ((nodes.map (fun n => backward_contrib ctx v n
        (ggml_build_backward_expand ctx nodes out v n) t)).sum) := by
  intro t
  unfold ggml_build_backward_expand
  exact backward_fold_accumulates ctx v nodes hnd htopo
    (fun u => if u = out then 1 else 0) t

/-- Witness for C3: the header example graph with nodes [3, 4, 5] (x2, a*x2,
f), output 5, forward values v0_axb extended by the computed node values;
instantiated at the input tensor x (index 0), which feeds both slots of the
squaring node. -/
theorem build_backward_expand_accumulates_witness :
    ggml_build_backward_expand ctx_axb [3, 4, 5] 5
        (ggml_graph_compute_forward ctx_axb
          { nodes := [3, 4, 5], leafs := [1, 0, 2],
            visited := [2, 0, 3, 1, 4, 5] } v0_axb) 0 =
      (if (0 : ℕ) = 5 then 1 else 0) +
      (([3, 4, 5].map (fun n => backward_contrib ctx_axb
        (ggml_graph_compute_forward ctx_axb
          { nodes := [3, 4, 5], leafs := [1, 0, 2],
            visited := [2, 0, 3, 1, 4, 5] } v0_axb) n
        (ggml_build_backward_expand ctx_axb [3, 4, 5] 5
          (ggml_graph_compute_forward ctx_axb
            { nodes := [3, 4, 5], leafs := [1, 0, 2],
              visited := [2, 0, 3, 1, 4, 5] } v0_axb) n) 0)).sum) :=
  build_backward_expand_accumulates ctx_axb [3, 4, 5] 5
    (ggml_graph_compute_forward ctx_axb
      { nodes := [3, 4, 5], leafs := [1, 0, 2],
        visited := [2, 0, 3, 1, 4, 5] } v0_axb)
    (by decide) (by decide) 0

/-- The expansion of the header example graph, evaluated: depth-first from
the output f (index 5), the node sequence is x2, a*x2, f and the leaf
sequence is a, x, b. -/
theorem expand_axb_eq :
    expand_outputs ctx_axb [5] =
      { nodes := [3, 4, 5], leafs := [1, 0, 2],
        visited := [2, 0, 3, 1, 4, 5] } := by
  simp [expand_outputs, ggml_build_forward_expand, empty_graph,
    visit_parents_succ, visit_src_list_cons, visit_src_list_nil,
    node_at, srcOf, srcAll, ctx_axb]

/-- C4: evaluating the header's own example `f(x) = a*x^2 + b` at
x = 2, a = 3, b = 4: forward execution over the expanded graph yields
f = 16, and the backward sweep over the same graph yields the gradients
df/dx = 12, df/da = 4, df/db = 1. -/
theorem axb_forward_backward :
    ggml_graph_compute_forward ctx_axb (expand_outputs ctx_axb [5]) v0_axb 5 = 16 ∧
    ggml_build_backward_expand ctx_axb (expand_outputs ctx_axb [5]).nodes 5
      (ggml_graph_compute_forward ctx_axb (expand_outputs ctx_axb [5]) v0_axb) 0 = 12 ∧
    ggml_build_backward_expand ctx_axb (expand_outputs ctx_axb [5]).nodes 5
      (ggml_graph_compute_forward ctx_axb (expand_outputs ctx_axb [5]) v0_axb) 1 = 4 ∧
    ggml_build_backward_expand ctx_axb (expand_outputs ctx_axb [5]).nodes 5
      (ggml_graph_compute_forward ctx_axb (expand_outputs ctx_axb [5]) v0_axb) 2 = 1 := by
  rw [expand_axb_eq]
  have h3 : node_at ctx_axb 3 = { op := ggml_op.mul, src := [0, 0], view_src := none } := rfl
  have h4 : node_at ctx_axb 4 = { op := ggml_op.mul, src := [1, 3], view_src := none } := rfl
  have h5 : node_at ctx_axb 5 = { op := ggml_op.add, src := [4, 2], view_src := none } := rfl
  norm_num [ggml_graph_compute_forward, ggml_build_backward_expand, forward_step,
    backward_step, eval_node, backward_contrib, v0_axb, h3, h4, h5]

/-- A running maximum over a list bounds every element, starts no lower than
its accumulator, and is attained by the accumulator or by some element. -/
theorem foldl_max_spec (f : ℕ → ℕ) : ∀ (l : List ℕ) (acc : ℕ),
    acc ≤ l.foldl (fun ws n => max ws (f n)) acc ∧
    (∀ n ∈ l, f n ≤ l.foldl (fun ws n => max ws (f n)) acc) ∧
    (l.foldl (fun ws n => max ws (f n)) acc = acc ∨
      ∃ n ∈ l, l.foldl (fun ws n => max ws (f n)) acc = f n) := by
  intro l
  induction l with
  | nil =>
    intro acc
    simp
  | cons x rest ih =>
    intro acc
    simp only [List.foldl_cons]
    obtain ⟨h1, h2, h3⟩ := ih (max acc (f x))
    refine ⟨le_trans (le_max_left acc (f x)) h1, ?_, ?_⟩
    · intro n hn
      rcases List.mem_cons.mp hn with rfl | hn2
      · exact le_trans (le_max_right acc (f n)) h1
      · exact h2 n hn2
    · rcases h3 with h3 | ⟨n, hn, h3⟩
      · by_cases hc : acc ≤ f x
        · right
          exact ⟨x, List.mem_cons_self x rest, by rw [h3, max_eq_right hc]⟩
        · left
          rw [h3, max_eq_left (le_of_not_le hc)]
      · right
        exact ⟨n, List.mem_cons_of_mem x hn, h3⟩

/-- C5: `ggml_graph_plan` fails fatally (modelled as `none`) whenever
`thread_count < 1`; otherwise it returns a plan whose `work_size` is the
maximum single-node scratch requirement under that thread count — an upper
bound on every node's requirement that is attained by some node (or zero
for a graph needing no scratch) — not the sum over nodes. -/
theorem graph_plan_work_size_is_max (scratch_bytes : ℕ → ℤ → ℕ)
    (g : ggml_cgraph) (n_threads : ℤ) :
    (n_threads < 1 → ggml_graph_plan scratch_bytes g n_threads = none) ∧
    (1 ≤ n_threads → ∃ p, ggml_graph_plan scratch_bytes g n_threads = some p ∧
      p.n_threads = n_threads ∧
      (∀ n ∈ g.nodes, scratch_bytes n n_threads ≤ p.work_size) ∧
      (p.work_size = 0 ∨
        ∃ n ∈ g.nodes, p.work_size = scratch_bytes n n_threads)) := by
  constructor
  · intro h
    unfold ggml_graph_plan
    rw [if_pos h]
  · intro h
    unfold ggml_graph_plan
    rw [if_neg (by omega)]
    refine ⟨_, rfl, rfl, ?_, ?_⟩
    · exact (foldl_max_spec (fun n => scratch_bytes n n_threads) g.nodes 0).2.1
    · exact (foldl_max_spec (fun n => scratch_bytes n n_threads) g.nodes 0).2.2

/-- Witness for C5: a three-node graph with per-node scratch requirements
10, 40, 20 under 4 threads — the plan exists with work_size bounding each
node, attained at some node; and thread count 0 aborts. -/
theorem graph_plan_work_size_is_max_witness :
    ggml_graph_plan (fun n _ => 10 * n) plan_demo_graph 0 = none ∧
    ∃ p, ggml_graph_plan (fun n _ => 10 * n) plan_demo_graph 4 = some p ∧
      p.n_threads = 4 ∧
      (∀ n ∈ plan_demo_graph.nodes, 10 * n ≤ p.work_size) ∧
      (p.work_size = 0 ∨ ∃ n ∈ plan_demo_graph.nodes, p.work_size = 10 * n) :=
  ⟨(graph_plan_work_size_is_max (fun n _ => 10 * n) plan_demo_graph 0).1
      (by decide),
   (graph_plan_work_size_is_max (fun n _ => 10 * n) plan_demo_graph 4).2
      (by decide)⟩

/-- The node loop returns ABORTED as soon as the abort callback answers true
at a node boundary, provided every earlier node ran cleanly. -/
theorem compute_nodes_aborts (cb ok : ℕ → Bool) :
    ∀ (l : List ℕ) (k0 k : ℕ), (hk : k < l.length) → cb (k0 + k) = true →
      (∀ j, (hj : j < l.length) → j < k → ok (l.get ⟨j, hj⟩) = true) →
      compute_nodes cb ok l k0 = ggml_status.GGML_STATUS_ABORTED := by
  intro l
  induction l with
  | nil =>
    intro k0 k hk
    exact absurd hk (Nat.not_lt_zero k)
  | cons n rest ih =>
    intro k0 k hk hcb hok
    unfold compute_nodes
    by_cases hc0 : cb k0 = true
    · rw [if_pos hc0]
    · rw [if_neg hc0]
      have hkpos : k ≠ 0 := by
        intro h0
        rw [h0, Nat.add_zero] at hcb
        exact hc0 hcb
      obtain ⟨kp, rfl⟩ : ∃ kp, k = kp + 1 := ⟨k - 1, by omega⟩
      have hokn : ok n = true := hok 0 (by simp) (by omega)
      rw [if_pos hokn]
      refine ih (k0 + 1) kp (by simpa using hk) (by
        have : k0 + 1 + kp = k0 + (kp + 1) := by omega
        rw [this]
        exact hcb) ?_
      intro j hj hjk
      have := hok (j + 1) (by simpa using hj) (by omega)
      simpa using this

/-- The node loop only ever returns success, generic failure or aborted. -/
theorem compute_nodes_status (cb ok : ℕ → Bool) :
    ∀ (l : List ℕ) (k0 : ℕ),
      compute_nodes cb ok l k0 = ggml_status.GGML_STATUS_SUCCESS ∨
      compute_nodes cb ok l k0 = ggml_status.GGML_STATUS_FAILED ∨
      compute_nodes cb ok l k0 = ggml_status.GGML_STATUS_ABORTED := by
  intro l
  induction l with
  | nil =>
    intro k0
    left
    rfl
  | cons n rest ih =>
    intro k0
    unfold compute_nodes
    by_cases hc : cb k0 = true
    · rw [if_pos hc]
      right
      right
      rfl
    · rw [if_neg hc]
      by_cases ho : ok n = true
      · rw [if_pos ho]
        exact ih (k0 + 1)
      · rw [if_neg ho]
        right
        left
        rfl

/-- C6: `ggml_graph_compute` returns exactly one of the four statuses of
`enum ggml_status`; and whenever the abort callback answers true at some
node boundary `k` before the graph completes (the work buffer being
adequate and every earlier node running cleanly), the returned status is
`GGML_STATUS_ABORTED` — the abort is observed at a node boundary, never
mid-node, which in this model is structural: the callback is only ever
polled between nodes. -/
theorem graph_compute_status_and_abort (cb ok : ℕ → Bool) (g : ggml_cgraph)
    (plan : ggml_cplan) (cap : ℕ) :
    (ggml_graph_compute cb ok g plan cap = ggml_status.GGML_STATUS_SUCCESS ∨
     ggml_graph_compute cb ok g plan cap = ggml_status.GGML_STATUS_FAILED ∨
     ggml_graph_compute cb ok g plan cap = ggml_status.GGML_STATUS_ALLOC_FAILED ∨
     ggml_graph_compute cb ok g plan cap = ggml_status.GGML_STATUS_ABORTED) ∧
    (plan.work_size ≤ cap →
      ∀ k, (hk : k < g.nodes.length) → cb k = true →
      (∀ j, (hj : j < g.nodes.length) → j < k → ok (g.nodes.get ⟨j, hj⟩) = true) →
      ggml_graph_compute cb ok g plan cap = ggml_status.GGML_STATUS_ABORTED) := by
  constructor
  · unfold ggml_graph_compute
    by_cases hcap : cap < plan.work_size
    · rw [if_pos hcap]
      right
      right
      left
      rfl
    · rw [if_neg hcap]
      rcases compute_nodes_status cb ok g.nodes 0 with h | h | h
      · left
        exact h
      · right
        left
        exact h
      · right
        right
        right
        exact h
  · intro hcap k hk hcb hok
    unfold ggml_graph_compute
    rw [if_neg (by omega)]
    exact compute_nodes_aborts cb ok g.nodes 0 k hk (by simpa using hcb) hok

/-- Witness for C6: a three-node graph, adequate work buffer, all nodes
clean, abort requested at boundary 1 — the execution reports ABORTED. -/
theorem graph_compute_status_and_abort_witness :
    ggml_graph_compute (fun k => k == 1) (fun _ => true)
      { nodes := [3, 4, 5], leafs := [1, 0, 2], visited := [] }
      { work_size := 64, n_threads := 4 } 128 =
      ggml_status.GGML_STATUS_ABORTED :=
  (graph_compute_status_and_abort (fun k => k == 1) (fun _ => true)
    { nodes := [3, 4, 5], leafs := [1, 0, 2], visited := [] }
    { work_size := 64, n_threads := 4 } 128).2 (by decide) 1 (by decide)
    (by decide) (by decide)

/-- C9: an input whose magic differs from "GGUF" makes the loading routine
return the explicit failure `none` — never a fatal abort — and no partially
constructed context is exposed: every context the loader does return went
through full validation (its stored magic is the GGUF magic). -/
theorem gguf_init_rejects_bad_magic (bytes : List ℕ) :
    (bytes.take 4 ≠ GGUF_MAGIC → gguf_init_from_file bytes = none) ∧
    (∀ c, gguf_init_from_file bytes = some c → c.magic = GGUF_MAGIC) := by
  rcases bytes with _ | ⟨m0, _ | ⟨m1, _ | ⟨m2, _ | ⟨m3, _ |
    ⟨v0, _ | ⟨v1, _ | ⟨v2, _ | ⟨v3, rest⟩⟩⟩⟩⟩⟩⟩⟩
  · exact ⟨fun _ => rfl, fun c hc => by cases hc⟩
  · exact ⟨fun _ => rfl, fun c hc => by cases hc⟩
  · exact ⟨fun _ => rfl, fun c hc => by cases hc⟩
  · exact ⟨fun _ => rfl, fun c hc => by cases hc⟩
  · exact ⟨fun _ => rfl, fun c hc => by cases hc⟩
  · exact ⟨fun _ => rfl, fun c hc => by cases hc⟩
  · exact ⟨fun _ => rfl, fun c hc => by cases hc⟩
  · exact ⟨fun _ => rfl, fun c hc => by cases hc⟩
  · have hred : gguf_init_from_file (m0 :: m1 :: m2 :: m3 :: v0 :: v1 :: v2 :: v3 :: rest) =
        (if [m0, m1, m2, m3] ≠ GGUF_MAGIC then none
         else if read_u32_le v0 v1 v2 v3 ≠ GGUF_VERSION ∧
             read_u32_le v0 v1 v2 v3 ≠ 2 then none
         else some { magic := [m0, m1, m2, m3],
                     version := read_u32_le v0 v1 v2 v3, rest := rest }) := rfl
    constructor
    · intro hmagic
      have hm : [m0, m1, m2, m3] ≠ GGUF_MAGIC := by
        simpa using hmagic
      rw [hred, if_pos hm]
    · intro c hc
      rw [hred] at hc
      by_cases hm : [m0, m1, m2, m3] ≠ GGUF_MAGIC
      · rw [if_pos hm] at hc
        cases hc
      · rw [if_neg hm] at hc
        by_cases hv : read_u32_le v0 v1 v2 v3 ≠ GGUF_VERSION ∧
            read_u32_le v0 v1 v2 v3 ≠ 2
        · rw [if_pos hv] at hc
          cases hc
        · rw [if_neg hv] at hc
          cases hc
          simpa using hm

/-- Witness for C9: eight zero bytes have the wrong magic and are rejected
with `none`. -/
theorem gguf_init_rejects_bad_magic_witness :
    gguf_init_from_file [0, 0, 0, 0, 0, 0, 0, 0] = none :=
  (gguf_init_rejects_bad_magic [0, 0, 0, 0, 0, 0, 0, 0]).1 (by decide)

end Ggml
